import Mathlib

/-!
Shallow embedding of `gide/keyfun.go`: the key-sequence-to-command resolver,
the `Update` reconciler, the needs-second-key prefix index, and the keymap
registry.  Go maps are modelled as association lists with unique keys; Go map
iteration order (nondeterministic in Go) is taken to be the list order, and
the unstable `sort.Slice` is modelled by a stable insertion sort — a canonical
deterministic choice of the permitted behaviours.
-/

namespace Gide

/-- Model of `gide.KeyFuns`: the closed enumeration of key functions, in the order of
the Go `const` block (`KeyFunNil = iota`, ...). -/
inductive KeyFuns where
  | Nil
  | Needs2
  | NextPanel
  | PrevPanel
  | GotoLine
  | SearchFile
  | SearchProj
  | FileOpen
  | BufSelect
  | BufSave
  | ExecCmd
  deriving DecidableEq, Repr

/-- The numeric value of each `KeyFuns` constant (`iota` in the Go source);
this is the order used by `sort.Slice` in `Update`. -/
def KeyFuns.val : KeyFuns → Nat
  | .Nil => 0
  | .Needs2 => 1
  | .NextPanel => 2
  | .PrevPanel => 3
  | .GotoLine => 4
  | .SearchFile => 5
  | .SearchProj => 6
  | .FileOpen => 7
  | .BufSelect => 8
  | .BufSave => 9
  | .ExecCmd => 10

/-- Output of `KeyFuns.String()`: the rendering by of the `go:generate stringer -type=KeyFuns`
generated code (not under `src/`; stringer emits the constant's name). -/
def KeyFuns.str : KeyFuns → String
  | .Nil => "KeyFunNil"
  | .Needs2 => "KeyFunNeeds2"
  | .NextPanel => "KeyFunNextPanel"
  | .PrevPanel => "KeyFunPrevPanel"
  | .GotoLine => "KeyFunGotoLine"
  | .SearchFile => "KeyFunSearchFile"
  | .SearchProj => "KeyFunSearchProj"
  | .FileOpen => "KeyFunFileOpen"
  | .BufSelect => "KeyFunBufSelect"
  | .BufSave => "KeyFunBufSave"
  | .ExecCmd => "KeyFunExecCmd"

/-- Model of `key.Chord` from `goki/gi/oswin/key`: an opaque string token. -/
abbrev Chord := String

/-- Model of `gide.KeySeq`: a two-chord key sequence (second chord may be empty). -/
structure KeySeq where
  Key1 : Chord
  Key2 : Chord
  deriving DecidableEq, Repr

/-- Model of `strings.TrimPrefix` (expressed on the character lists). -/
def stringsTrimPrefix (s pre : String) : String :=
  if pre.data.isPrefixOf s.data then ⟨s.data.drop pre.data.length⟩ else s

/-- Model of `bytes.Join` specialised to a string separator. -/
def bytesJoin (sep : String) : List String → String
  | [] => ""
  | [b] => b
  | b :: bs => b ++ sep ++ bytesJoin sep bs

/-- Model of `KeySeq.MarshalText`: `bytes.Join([Key1, Key2], ";")`. -/
def KeySeq.marshalText (kf : KeySeq) : String :=
  bytesJoin ";" [kf.Key1, kf.Key2]

/-- Model of `bytes.Split(b, []byte(";"))` on the character list of the input: split at
every `';'`; always returns at least one (possibly empty) part. -/
def splitSemi : List Char → List (List Char)
  | [] => [[]]
  | c :: cs =>
    if c = ';' then [] :: splitSemi cs
    else
      match splitSemi cs with
      | [] => [[c]]
      | p :: ps => (c :: p) :: ps

/-- Model of `KeySeq.UnmarshalText`: splits on `';'` and reads parts `bs[0]` and
`bs[1]`.  The Go code indexes `bs[1]` unconditionally; when the input holds
no `';'` the split has a single part and the access is out of bounds (panic),
modelled as `none`. -/
def KeySeq.unmarshalText (b : String) : Option KeySeq :=
  match (splitSemi b.data).map String.mk with
  | b0 :: b1 :: _ => some ⟨b0, b1⟩
  | _ => none

/-- Model of `gide.KeySeqMap`: a Go map from `KeySeq` to `KeyFuns`, modelled as an
association list with unique keys. -/
abbrev KeySeqMap := List (KeySeq × KeyFuns)

/-- Go map read `m[k]` with its `ok` flag. -/
def KeySeqMap.lookup (km : KeySeqMap) (k : KeySeq) : Option KeyFuns :=
  match km.find? (fun e => e.1 = k) with
  | some e => some e.2
  | none => none

/-- Go map assignment `m[k] = v`: replace the binding if the key is present,
otherwise add it. -/
def KeySeqMap.assign (km : KeySeqMap) (k : KeySeq) (v : KeyFuns) : KeySeqMap :=
  match km with
  | [] => [(k, v)]
  | e :: es => if e.1 = k then (k, v) :: es else e :: KeySeqMap.assign es k v

/-- The key set of the association list. -/
def KeySeqMap.keys (km : KeySeqMap) : List KeySeq := km.map (·.1)

/-- Model of `KeySeqMap.ToSlice`: copy the map to a slice of (Keys, Fun) items; with
the association-list model this is the list itself. -/
def KeySeqMap.toSlice (km : KeySeqMap) : List (KeySeq × KeyFuns) := km

/-- Model of `KeySeqMap.ChordForFun`: first key sequence bound to the given function,
or the zero `KeySeq` if none. -/
def KeySeqMap.chordForFun (km : KeySeqMap) (kf : KeyFuns) : KeySeq :=
  match km.find? (fun e => e.2 = kf) with
  | some e => e.1
  | none => ⟨"", ""⟩

/-- Comparison used by `sort.Slice(..., func(i,j) { return ...Fun < ...Fun })`:
entries ordered by ascending function value. -/
def seqFunLE (a b : KeySeq × KeyFuns) : Prop := a.2.val ≤ b.2.val

instance : DecidableRel seqFunLE := fun a b => Nat.decLe a.2.val b.2.val

instance : IsTotal (KeySeq × KeyFuns) seqFunLE :=
  ⟨fun a b => Nat.le_total a.2.val b.2.val⟩

instance : IsTrans (KeySeq × KeyFuns) seqFunLE :=
  ⟨fun _ _ _ h1 h2 => Nat.le_trans h1 h2⟩

/-- The ascending-by-function sort of `Update` (Go's `sort.Slice` is unstable;
a stable insertion sort is the canonical deterministic model). -/
def sortByFun (l : List (KeySeq × KeyFuns)) : List (KeySeq × KeyFuns) :=
  l.insertionSort seqFunLE

/-- The placeholder entry `Update` synthesizes for a default item `d` whose
function has no candidate binding: `Key1` becomes
`"- Not Set - " ++ TrimPrefix(d.Fun.String(), "KeyFun")`, `Key2` and the
function are kept from `d`. -/
def placeholder (d : KeySeq × KeyFuns) : KeySeq × KeyFuns :=
  (⟨"- Not Set - " ++ stringsTrimPrefix d.2.str "KeyFun", d.1.Key2⟩, d.2)

/-- The merge-join loop of `Update` (lines 193–211 of `keyfun.go`): walk the
function-sorted default slice against the function-sorted candidate slice
with pointer `mi`; when the default function is smaller, record a placeholder
(`mi` unchanged), otherwise advance `mi`; stop as soon as `mi` runs off the
candidate slice.  Returns `addkm`. -/
def mergeMissing : List (KeySeq × KeyFuns) → List (KeySeq × KeyFuns) →
    List (KeySeq × KeyFuns)
  | [], _ => []
  | _ :: _, [] => []
  | d :: ds, m :: ms =>
    if d.2.val < m.2.val then placeholder d :: mergeMissing ds (m :: ms)
    else mergeMissing ds ms

/-- The final `for _, ai := range addkm { (*km)[ai.Keys] = ai.Fun }` loop. -/
def insertItems (km : KeySeqMap) (its : List (KeySeq × KeyFuns)) : KeySeqMap :=
  its.foldl (fun acc it => KeySeqMap.assign acc it.1 it.2) km

/-- The needs-second-key index type (`gi.KeyMap` keyed by chord; only chord
membership matters, so it is modelled as a duplicate-free chord list). -/
def needs2Of (km : KeySeqMap) : List Chord :=
  km.foldl (fun acc e =>
    if e.1.Key2 ≠ "" then (if e.1.Key1 ∈ acc then acc else acc ++ [e.1.Key1])
    else acc) []

/-- Model of `KeySeqMap.Update`, given the default map `dkm` that the source obtains
from `AvailKeyMaps.MapByName(DefaultKeyMap)`.  Takes and returns the
`Needs2KeyMap` global: the bootstrap (empty candidate) path returns before
the index rebuild, leaving it unchanged. -/
def KeySeqMap.update (dkm km : KeySeqMap) (needs2 : List Chord) :
    KeySeqMap × List Chord :=
  let km1 := km.filter (fun e => e.2 ≠ KeyFuns.Nil)
  let dkms := KeySeqMap.toSlice dkm
  let kms := KeySeqMap.toSlice km1
  if kms.length = 0 then
    (insertItems km1 dkms, needs2)
  else
    let addkm := mergeMissing (sortByFun dkms) (sortByFun kms)
    let km2 := insertItems km1 addkm
    (km2, needs2Of km2)

/-- Model of `gide.KeyFun`: resolve up to two chords against the active map and the
needs-second-key index. -/
def KeyFun (akm : KeySeqMap) (needs2 : List Chord) (key1 key2 : Chord) :
    KeyFuns :=
  let ks : KeySeq := ⟨key1, key2⟩
  if key1 ≠ "" && key2 ≠ "" then
    match KeySeqMap.lookup akm ks with
    | some kfg => kfg
    | none => KeyFuns.Nil
  else if key1 ≠ "" then
    if key1 ∈ needs2 then KeyFuns.Needs2
    else
      match KeySeqMap.lookup akm ks with
      | some kfg => kfg
      | none => KeyFuns.Nil
  else KeyFuns.Nil

/-- Model of `gide.KeyMapsItem`: one named entry of the keymap registry. -/
structure KeyMapsItem where
  Name : String
  Desc : String
  Map : KeySeqMap
  deriving Repr

/-- Model of `gide.KeyMaps`: the registry, an ordered list of named keymaps. -/
abbrev KeyMaps := List KeyMapsItem

/-- Model of `KeyMaps.MapByName`: first entry with the given name, with its index;
`none` on miss (the source prints a message and returns `nil, -1, false`). -/
def KeyMaps.mapByName (km : KeyMaps) (name : String) : Option (KeySeqMap × Nat) :=
  match km with
  | [] => none
  | it :: its =>
    if it.Name = name then some (it.Map, 0)
    else
      match KeyMaps.mapByName its name with
      | some (m, i) => some (m, i + 1)
      | none => none

/-- The bindings shared (verbatim, in source order) by all six `StdKeyMaps`
entries of `keyfun.go`. -/
def stdBindings : KeySeqMap :=
  [ (⟨"Control+X", "o"⟩, KeyFuns.NextPanel),
    (⟨"Control+X", "p"⟩, KeyFuns.PrevPanel),
    (⟨"Control+X", "f"⟩, KeyFuns.FileOpen),
    (⟨"Control+X", "Control+F"⟩, KeyFuns.FileOpen),
    (⟨"Control+X", "b"⟩, KeyFuns.BufSelect),
    (⟨"Control+X", "s"⟩, KeyFuns.BufSave),
    (⟨"Control+c", "Control+c"⟩, KeyFuns.ExecCmd) ]

/-- Model of `gide.StdKeyMaps`: the compiled-in canonical registry. -/
def stdKeyMaps : KeyMaps :=
  [ ⟨"MacStd", "Standard Mac KeyMap", stdBindings⟩,
    ⟨"MacEmacs", "Mac with emacs-style navigation -- emacs wins in conflicts",
      stdBindings⟩,
    ⟨"LinuxStd", "Standard Linux KeySeqMap", stdBindings⟩,
    ⟨"LinuxEmacs", "Linux with emacs-style navigation -- emacs wins in conflicts",
      stdBindings⟩,
    ⟨"WindowsStd", "Standard Windows KeySeqMap", stdBindings⟩,
    ⟨"ChromeStd", "Standard chrome-browser and linux-under-chrome bindings",
      stdBindings⟩ ]

/-- The mutable globals of `keyfun.go`: the registry `AvailKeyMaps`, the
default-map name `DefaultKeyMap`, the published `ActiveKeyMap` (a pointer,
`none` before first activation), and `Needs2KeyMap`. -/
structure GState where
  avail : KeyMaps
  defaultName : String
  active : Option KeySeqMap
  needs2 : List Chord

/-- The process-start state: `AvailKeyMaps` copied from `StdKeyMaps`,
`DefaultKeyMap = "MacEmacs"`, no active map, empty index. -/
def initialGState : GState :=
  ⟨stdKeyMaps, "MacEmacs", none, []⟩

/-- Replace the map stored in registry entry `i` (the in-place mutation Go's
shared map header performs through `Update`). -/
def KeyMaps.setMapAt (km : KeyMaps) (i : Nat) (m : KeySeqMap) : KeyMaps :=
  km.mapIdx (fun j it => if j = i then { it with Map := m } else it)

/-- Model of `gide.SetActiveKeyMap` given the already-looked-up registry index of the
map being activated: run `Update` (whose default map is the registry entry
named `st.defaultName`) and publish the result.  `Update` dereferences the
default-lookup result unconditionally, so a missing default is a panic,
modelled as `none`.  When the activated entry *is* the default entry, Go's
aliasing makes `Update` read the default after its own purge has run, hence
the purged map is used as the default in that case. -/
def setActiveKeyMapAt (st : GState) (m : KeySeqMap) (i : Nat) : Option GState :=
  match KeyMaps.mapByName st.avail st.defaultName with
  | none => none
  | some (dkm0, j) =>
      let dkm := if j = i then m.filter (fun e => e.2 ≠ KeyFuns.Nil) else dkm0
      let r := KeySeqMap.update dkm m st.needs2
      some { st with
        avail := KeyMaps.setMapAt st.avail i r.1,
        active := some r.1,
        needs2 := r.2 }

/-- Model of `gide.SetActiveKeyMapName`: look the name up in `AvailKeyMaps`; on a miss
do nothing, otherwise activate the first entry with that name. -/
def setActiveKeyMapName (mapnm : String) (st : GState) : Option GState :=
  match KeyMaps.mapByName st.avail mapnm with
  | none => some st
  | some (m, i) => setActiveKeyMapAt st m i

/-- Function values of a slice of entries (the only data the merge-join loop
of `Update` inspects). -/
def funsOf (l : List (KeySeq × KeyFuns)) : List Nat := l.map (fun e => e.2.val)

/-- Merge of two sorted `Nat` lists (proof device for the idempotence
analysis of `Update`). -/
def mergeNat (xs ys : List Nat) : List Nat :=
  match xs, ys with
  | [], ys => ys
  | xs, [] => xs
  | x :: xs', y :: ys' =>
    if x ≤ y then x :: mergeNat xs' (y :: ys') else y :: mergeNat (x :: xs') ys'
termination_by xs.length + ys.length

/-- The merge-join loop of `Update` viewed on function values only. -/
def gMiss (ds ms : List Nat) : List Nat :=
  match ds, ms with
  | [], _ => []
  | _ :: _, [] => []
  | d :: ds', m :: ms' =>
    if d < m then d :: gMiss ds' (m :: ms') else gMiss ds' ms'

theorem splitSemi_not_nil (l : List Char) : splitSemi l ≠ [] := by
  cases l with
  | nil => simp [splitSemi]
  | cons c cs =>
      simp only [splitSemi]
      split
      · simp
      · cases h : splitSemi cs <;> simp

theorem splitSemi_of_not_mem {l : List Char} (h : ';' ∉ l) : splitSemi l = [l] := by
  induction l with
  | nil => rfl
  | cons c cs ih =>
      have hc : c ≠ ';' := fun hc => h (hc ▸ List.mem_cons_self c cs)
      have hcs : ';' ∉ cs := fun hm => h (List.mem_cons_of_mem c hm)
      simp [splitSemi, hc, ih hcs]

theorem splitSemi_append {l1 l2 : List Char} (h : ';' ∉ l1) :
    splitSemi (l1 ++ ';' :: l2) = l1 :: splitSemi l2 := by
  induction l1 with
  | nil => simp [splitSemi]
  | cons c cs ih =>
      have hc : c ≠ ';' := fun hc => h (hc ▸ List.mem_cons_self c cs)
      have hcs : ';' ∉ cs := fun hm => h (List.mem_cons_of_mem c hm)
      simp only [List.cons_append, splitSemi, hc, if_false]
      rw [show cs.append (';' :: l2) = cs ++ ';' :: l2 from rfl, ih hcs]

theorem needs2Of_aux (km : KeySeqMap) (acc : List Chord) (c : Chord) :
    c ∈ km.foldl (fun acc e =>
        if e.1.Key2 ≠ "" then (if e.1.Key1 ∈ acc then acc else acc ++ [e.1.Key1])
        else acc) acc ↔
      c ∈ acc ∨ ∃ e ∈ km, e.1.Key1 = c ∧ e.1.Key2 ≠ "" := by
  induction km generalizing acc with
  | nil => simp
  | cons e es ih =>
      simp only [List.foldl_cons, ih]
      by_cases h2 : e.1.Key2 = "" <;> by_cases h1 : e.1.Key1 ∈ acc <;>
        simp [h2, h1, List.mem_append, or_assoc] <;> aesop

theorem mem_needs2Of (km : KeySeqMap) (c : Chord) :
    c ∈ needs2Of km ↔ ∃ e ∈ km, e.1.Key1 = c ∧ e.1.Key2 ≠ "" := by
  unfold needs2Of
  rw [needs2Of_aux]
  simp

/-- C6: for a `KeySeq` whose chords contain no `';'`, `MarshalText` yields
exactly `Key1 ++ ";" ++ Key2`, and `UnmarshalText` of that encoding restores
the original sequence. -/
theorem claim_C6 (kf : KeySeq) (h1 : ';' ∉ kf.Key1.data)
    (h2 : ';' ∉ kf.Key2.data) :
    kf.marshalText = kf.Key1 ++ ";" ++ kf.Key2 ∧
      KeySeq.unmarshalText kf.marshalText = some kf := by
  refine ⟨rfl, ?_⟩
  unfold KeySeq.unmarshalText
  have hdata : kf.marshalText.data = (kf.Key1.data ++ [';']) ++ kf.Key2.data := rfl
  rw [hdata, List.append_assoc, List.singleton_append, splitSemi_append h1,
    splitSemi_of_not_mem h2]
  rfl

/-- Witness for C6 at the spec's example `("Control+X","o") ↔ "Control+X;o"`. -/
theorem claim_C6_witness :
    KeySeq.marshalText ⟨"Control+X", "o"⟩ = "Control+X" ++ ";" ++ "o" ∧
      KeySeq.unmarshalText (KeySeq.marshalText ⟨"Control+X", "o"⟩) =
        some ⟨"Control+X", "o"⟩ :=
  claim_C6 ⟨"Control+X", "o"⟩ (by decide) (by decide)

/-- C10: `UnmarshalText` unconditionally reads the second part of the
semicolon split; on any input without `';'` the split has exactly one part,
so the read is out of bounds (modelled as `none`). -/
theorem claim_C10 (b : String) (h : ';' ∉ b.data) :
    (splitSemi b.data).length = 1 ∧ KeySeq.unmarshalText b = none := by
  rw [splitSemi_of_not_mem h]
  exact ⟨rfl, by unfold KeySeq.unmarshalText; rw [splitSemi_of_not_mem h]; rfl⟩

/-- Witness for C10 at the input `"abc"`. -/
theorem claim_C10_witness :
    (splitSemi ("abc" : String).data).length = 1 ∧
      KeySeq.unmarshalText "abc" = none :=
  claim_C10 "abc" (by decide)

/-- C4: with the prefix index as the rebuild pass of `Update` computes it
(`needs2Of`), a non-empty first chord that starts some two-key sequence in
the table resolves to `Needs2` when the second chord is empty — regardless
of any single-key binding for that chord. -/
theorem claim_C4 (akm : KeySeqMap) (k1 : Chord) (h1 : k1 ≠ "")
    (e : KeySeq × KeyFuns) (he : e ∈ akm) (hk : e.1.Key1 = k1)
    (h2 : e.1.Key2 ≠ "") :
    KeyFun akm (needs2Of akm) k1 "" = KeyFuns.Needs2 := by
  have hmem : k1 ∈ needs2Of akm := (mem_needs2Of akm k1).mpr ⟨e, he, hk, h2⟩
  unfold KeyFun
  simp [h1, hmem]

/-- Witness for C4: the spec's conflict example, after `Update` on a table
holding both `("Control+C","")` and `("Control+C","Control+C")`: the
single-key `BufSave` binding is shadowed. -/
theorem claim_C4_witness :
    KeyFun ((KeySeqMap.update stdBindings
        [(⟨"Control+C", ""⟩, KeyFuns.BufSave),
         (⟨"Control+C", "Control+C"⟩, KeyFuns.ExecCmd)] []).1)
      (needs2Of ((KeySeqMap.update stdBindings
        [(⟨"Control+C", ""⟩, KeyFuns.BufSave),
         (⟨"Control+C", "Control+C"⟩, KeyFuns.ExecCmd)] []).1))
      "Control+C" "" = KeyFuns.Needs2 :=
  claim_C4 _ "Control+C" (by decide)
    (⟨"Control+C", "Control+C"⟩, KeyFuns.ExecCmd) (by decide) rfl (by decide)

theorem mem_assign {m : KeySeqMap} {k : KeySeq} {v : KeyFuns}
    {e : KeySeq × KeyFuns} (h : e ∈ KeySeqMap.assign m k v) :
    e ∈ m ∨ e = (k, v) := by
  induction m with
  | nil => simpa [KeySeqMap.assign] using h
  | cons a as ih =>
      by_cases hk : a.1 = k
      · simp only [KeySeqMap.assign, hk, if_true] at h
        rcases List.mem_cons.mp h with h | h
        · exact Or.inr h
        · exact Or.inl (List.mem_cons_of_mem a h)
      · simp only [KeySeqMap.assign, hk, if_false] at h
        rcases List.mem_cons.mp h with h | h
        · exact Or.inl (h ▸ List.mem_cons_self a as)
        · rcases ih h with h | h
          · exact Or.inl (List.mem_cons_of_mem a h)
          · exact Or.inr h

theorem mem_insertItems {m : KeySeqMap} {its : List (KeySeq × KeyFuns)}
    {e : KeySeq × KeyFuns} (h : e ∈ insertItems m its) : e ∈ m ∨ e ∈ its := by
  induction its generalizing m with
  | nil => exact Or.inl h
  | cons it rest ih =>
      rcases ih h with h | h
      · rcases mem_assign h with h | h
        · exact Or.inl h
        · exact Or.inr (h ▸ List.mem_cons_self it rest)
      · exact Or.inr (List.mem_cons_of_mem it h)

theorem mem_mergeMissing {D M : List (KeySeq × KeyFuns)}
    {e : KeySeq × KeyFuns} (h : e ∈ mergeMissing D M) :
    ∃ d ∈ D, e = placeholder d := by
  induction D generalizing M with
  | nil => simp [mergeMissing] at h
  | cons d ds ih =>
      cases M with
      | nil => simp [mergeMissing] at h
      | cons m ms =>
          by_cases hlt : d.2.val < m.2.val
          · simp only [mergeMissing, hlt, if_true] at h
            rcases List.mem_cons.mp h with h | h
            · exact ⟨d, List.mem_cons_self d ds, h⟩
            · rcases ih h with ⟨d', hd', he⟩
              exact ⟨d', List.mem_cons_of_mem d hd', he⟩
          · simp only [mergeMissing, hlt, if_false] at h
            rcases ih h with ⟨d', hd', he⟩
            exact ⟨d', List.mem_cons_of_mem d hd', he⟩

theorem assign_of_not_mem_keys {m : KeySeqMap} {k : KeySeq} (v : KeyFuns)
    (h : k ∉ KeySeqMap.keys m) : KeySeqMap.assign m k v = m ++ [(k, v)] := by
  induction m with
  | nil => rfl
  | cons a as ih =>
      rw [show KeySeqMap.keys (a :: as) = a.1 :: KeySeqMap.keys as from rfl] at h
      have hk : a.1 ≠ k := fun hh => h (hh ▸ List.mem_cons_self _ _)
      have h' : k ∉ KeySeqMap.keys as := fun hh => h (List.mem_cons_of_mem _ hh)
      simp [KeySeqMap.assign, hk, ih h']

theorem insertItems_eq_append {m : KeySeqMap} {its : List (KeySeq × KeyFuns)}
    (hd : ∀ it ∈ its, it.1 ∉ KeySeqMap.keys m)
    (hn : (its.map (·.1)).Nodup) : insertItems m its = m ++ its := by
  induction its generalizing m with
  | nil => simp [insertItems]
  | cons it rest ih =>
      rw [show (it :: rest).map (·.1) = it.1 :: rest.map (·.1) from rfl,
        List.nodup_cons] at hn
      have h1 : it.1 ∉ KeySeqMap.keys m := hd it (List.mem_cons_self it rest)
      have step : insertItems m (it :: rest) =
          insertItems (m ++ [it]) rest := by
        simp [insertItems, assign_of_not_mem_keys it.2 h1]
      rw [step, ih]
      · simp
      · intro i hi hmem
        have hik : i.1 ∉ KeySeqMap.keys m := hd i (List.mem_cons_of_mem it hi)
        have hne : i.1 ≠ it.1 := fun hh => hn.1 (hh ▸ List.mem_map_of_mem (·.1) hi)
        rw [show KeySeqMap.keys (m ++ [it]) = KeySeqMap.keys m ++ [it.1] by
          simp [KeySeqMap.keys]] at hmem
        rcases List.mem_append.mp hmem with hm | hm
        · exact hik hm
        · exact hne (List.mem_singleton.mp hm)
      · exact hn.2

theorem update_of_purge_nil (dkm km : KeySeqMap) (n2 : List Chord)
    (h : km.filter (fun e => e.2 ≠ KeyFuns.Nil) = []) :
    KeySeqMap.update dkm km n2 = (insertItems [] (KeySeqMap.toSlice dkm), n2) := by
  unfold KeySeqMap.update
  rw [h]
  rfl

theorem update_of_purge_ne_nil (dkm km : KeySeqMap) (n2 : List Chord)
    (h : km.filter (fun e => e.2 ≠ KeyFuns.Nil) ≠ []) :
    KeySeqMap.update dkm km n2 =
      (insertItems (km.filter (fun e => e.2 ≠ KeyFuns.Nil))
        (mergeMissing (sortByFun (KeySeqMap.toSlice dkm))
          (sortByFun (KeySeqMap.toSlice (km.filter (fun e => e.2 ≠ KeyFuns.Nil))))),
       needs2Of (insertItems (km.filter (fun e => e.2 ≠ KeyFuns.Nil))
        (mergeMissing (sortByFun (KeySeqMap.toSlice dkm))
          (sortByFun (KeySeqMap.toSlice (km.filter (fun e => e.2 ≠ KeyFuns.Nil))))))) := by
  unfold KeySeqMap.update
  rw [if_neg]
  simpa [KeySeqMap.toSlice, List.length_eq_zero] using h

/-- C1 (refuted by the code): evaluating `Update` at the candidate
`{("z","") ↦ NextPanel}` with the canonical default: the merge loop breaks as
soon as its pointer passes the one candidate entry, so the table is returned
unchanged and `PrevPanel` (bound in the default) ends with no binding —
contradicting `Update`'s own doc comment ("ensures that the given keymap has
at least one entry for every defined KeyFun"). -/
theorem claim_C1 :
    (KeySeqMap.update stdBindings [(⟨"z", ""⟩, KeyFuns.NextPanel)] []).1
        = [(⟨"z", ""⟩, KeyFuns.NextPanel)] ∧
      (∃ d ∈ stdBindings, d.2 = KeyFuns.PrevPanel) ∧
      ∀ e ∈ (KeySeqMap.update stdBindings [(⟨"z", ""⟩, KeyFuns.NextPanel)] []).1,
        e.2 ≠ KeyFuns.PrevPanel := by
  decide

/-- C2 counterexample: for the non-empty candidate `{("a","") ↦ ExecCmd}`,
`NextPanel` is bound in the default table and absent from the candidate, yet
`Update` does not copy the default binding `("Control+X","o") ↦ NextPanel`;
it synthesizes the placeholder `("- Not Set - NextPanel","o")` even though
the function is not "genuinely without a binding" in the default. -/
theorem claim_C2_cex :
    (∃ d ∈ stdBindings, d.1 = ⟨"Control+X", "o"⟩ ∧ d.2 = KeyFuns.NextPanel) ∧
      (∀ e ∈ ([(⟨"a", ""⟩, KeyFuns.ExecCmd)] : KeySeqMap),
        e.2 ≠ KeyFuns.NextPanel) ∧
      KeySeqMap.lookup
        (KeySeqMap.update stdBindings [(⟨"a", ""⟩, KeyFuns.ExecCmd)] []).1
        ⟨"Control+X", "o"⟩ = none ∧
      ∃ e ∈ (KeySeqMap.update stdBindings [(⟨"a", ""⟩, KeyFuns.ExecCmd)] []).1,
        e = (⟨"- Not Set - NextPanel", "o"⟩, KeyFuns.NextPanel) := by
  decide

/-- C2 as amended: on a candidate that is non-empty after the purge, every
entry of the updated table is either an entry of the purged candidate or a
synthesized placeholder of a default entry (first chord replaced by the
`"- Not Set - "` marker name); the default table's own binding is never
copied in this path. -/
theorem claim_C2 (km : KeySeqMap) (n2 : List Chord)
    (h : km.filter (fun e => e.2 ≠ KeyFuns.Nil) ≠ [])
    (e : KeySeq × KeyFuns)
    (he : e ∈ (KeySeqMap.update stdBindings km n2).1) :
    e ∈ km.filter (fun e => e.2 ≠ KeyFuns.Nil) ∨
      ∃ d ∈ KeySeqMap.toSlice stdBindings,
        e = placeholder d ∧
          e.1.Key1 = "- Not Set - " ++ stringsTrimPrefix d.2.str "KeyFun" := by
  rw [update_of_purge_ne_nil stdBindings km n2 h] at he
  rcases mem_insertItems he with he | he
  · exact Or.inl he
  · rcases mem_mergeMissing he with ⟨d, hd, hpe⟩
    have hd' : d ∈ KeySeqMap.toSlice stdBindings :=
      (List.perm_insertionSort seqFunLE _).mem_iff.mp hd
    exact Or.inr ⟨d, hd', hpe, by rw [hpe]; rfl⟩

/-- Witness for C2 at the counterexample candidate. -/
theorem claim_C2_witness :
    ([(⟨"a", ""⟩, KeyFuns.ExecCmd)] : KeySeqMap).filter
        (fun e => e.2 ≠ KeyFuns.Nil) ≠ [] ∧
      (((⟨"- Not Set - NextPanel", "o"⟩, KeyFuns.NextPanel) : KeySeq × KeyFuns) ∈
          (([(⟨"a", ""⟩, KeyFuns.ExecCmd)] : KeySeqMap).filter
            (fun e => e.2 ≠ KeyFuns.Nil)) ∨
        ∃ d ∈ KeySeqMap.toSlice stdBindings,
          ((⟨"- Not Set - NextPanel", "o"⟩, KeyFuns.NextPanel) : KeySeq × KeyFuns)
              = placeholder d ∧
            ((⟨"- Not Set - NextPanel", "o"⟩, KeyFuns.NextPanel) :
              KeySeq × KeyFuns).1.Key1 =
              "- Not Set - " ++ stringsTrimPrefix d.2.str "KeyFun") :=
  ⟨by decide,
    claim_C2 [(⟨"a", ""⟩, KeyFuns.ExecCmd)] [] (by decide)
      (⟨"- Not Set - NextPanel", "o"⟩, KeyFuns.NextPanel) (by decide)⟩

/-- C3 counterexample: `Update` on an empty candidate table (bootstrap)
returns before the prefix-index rebuild: with an initially empty
`Needs2KeyMap`, the updated table contains `("Control+X","o") ↦ NextPanel`
(non-empty second chord) while the index stays empty. -/
theorem claim_C3_cex :
    (KeySeqMap.update stdBindings [] []).2 = [] ∧
      ∃ e ∈ (KeySeqMap.update stdBindings [] []).1,
        e.1.Key2 ≠ "" ∧ e.1.Key1 ∉ (KeySeqMap.update stdBindings [] []).2 := by
  decide

/-- C3 as amended: after `Update` on a candidate that is non-empty after the
purge of `Nil` entries, the needs-second-key index contains exactly the first
chords of entries of the updated table whose second chord is non-empty (the
bootstrap path instead leaves the index untouched). -/
theorem claim_C3 (dkm km : KeySeqMap) (n2 : List Chord) (c : Chord)
    (h : km.filter (fun e => e.2 ≠ KeyFuns.Nil) ≠ []) :
    c ∈ (KeySeqMap.update dkm km n2).2 ↔
      ∃ e ∈ (KeySeqMap.update dkm km n2).1, e.1.Key1 = c ∧ e.1.Key2 ≠ "" := by
  rw [update_of_purge_ne_nil dkm km n2 h]
  exact mem_needs2Of _ c

/-- Witness for C3 on a concrete non-empty candidate. -/
theorem claim_C3_witness :
    ([(⟨"Control+C", "Control+C"⟩, KeyFuns.ExecCmd)] : KeySeqMap).filter
        (fun e => e.2 ≠ KeyFuns.Nil) ≠ [] ∧
      ("Control+C" ∈ (KeySeqMap.update stdBindings
          [(⟨"Control+C", "Control+C"⟩, KeyFuns.ExecCmd)] []).2 ↔
        ∃ e ∈ (KeySeqMap.update stdBindings
            [(⟨"Control+C", "Control+C"⟩, KeyFuns.ExecCmd)] []).1,
          e.1.Key1 = "Control+C" ∧ e.1.Key2 ≠ "") :=
  ⟨by decide,
    claim_C3 stdBindings [(⟨"Control+C", "Control+C"⟩, KeyFuns.ExecCmd)] []
      "Control+C" (by decide)⟩

/-- C5 counterexample: the canonical default table has 7 entries but only 6
distinct functions (`FileOpen` is bound twice), so the bootstrapped table has
7 entries, not "exactly N entries, one per function" for N the number of
default-bound functions: both `FileOpen` bindings are copied. -/
theorem claim_C5_cex :
    (KeySeqMap.update stdBindings [] []).1.length = 7 ∧
      ((KeySeqMap.update stdBindings [] []).1.map (·.2)).dedup.length = 6 ∧
      ∃ e1 ∈ (KeySeqMap.update stdBindings [] []).1,
        ∃ e2 ∈ (KeySeqMap.update stdBindings [] []).1,
          e1.1 ≠ e2.1 ∧ e1.2 = KeyFuns.FileOpen ∧ e2.2 = KeyFuns.FileOpen := by
  decide

/-- C5 as amended: `Update` on an empty candidate copies the default table
verbatim — the resulting table is entry-for-entry the default table (hence
"one entry per function" only holds when the default itself binds each
function exactly once). -/
theorem claim_C5 (dkm : KeySeqMap) (n2 : List Chord)
    (hk : (KeySeqMap.keys dkm).Nodup) :
    (KeySeqMap.update dkm [] n2).1 = dkm := by
  rw [update_of_purge_nil dkm [] n2 rfl]
  have : insertItems [] (KeySeqMap.toSlice dkm) = [] ++ dkm :=
    insertItems_eq_append (by intro it _ h; simp [KeySeqMap.keys] at h) hk
  simpa using this

/-- Witness for C5 at the canonical default table. -/
theorem claim_C5_witness :
    (KeySeqMap.keys stdBindings).Nodup ∧
      (KeySeqMap.update stdBindings [] []).1 = stdBindings :=
  ⟨by decide, claim_C5 stdBindings [] (by decide)⟩

/-- C8 counterexample: `Update` purges only `Nil` entries; an entry bound to
the `Needs2` sentinel survives, so "no stored entry maps to the
NeedsSecondKey sentinel" fails. -/
theorem claim_C8_cex :
    (KeySeqMap.update stdBindings [(⟨"z", ""⟩, KeyFuns.Needs2)] []).1
        = [(⟨"z", ""⟩, KeyFuns.Needs2)] ∧
      ∃ e ∈ (KeySeqMap.update stdBindings [(⟨"z", ""⟩, KeyFuns.Needs2)] []).1,
        e.2 = KeyFuns.Needs2 := by
  decide

/-- C8 as amended: after `Update` (against a default table free of `Nil`
entries) no entry of the resulting table maps to `Nil`; entries mapping to
`Needs2` are, however, not removed. -/
theorem claim_C8 (dkm km : KeySeqMap) (n2 : List Chord)
    (hdkm : ∀ d ∈ dkm, d.2 ≠ KeyFuns.Nil)
    (e : KeySeq × KeyFuns) (he : e ∈ (KeySeqMap.update dkm km n2).1) :
    e.2 ≠ KeyFuns.Nil := by
  by_cases h : km.filter (fun e => e.2 ≠ KeyFuns.Nil) = []
  · rw [update_of_purge_nil dkm km n2 h] at he
    rcases mem_insertItems he with he | he
    · simp at he
    · exact hdkm e he
  · rw [update_of_purge_ne_nil dkm km n2 h] at he
    rcases mem_insertItems he with he | he
    · have := List.of_mem_filter he
      simpa using this
    · rcases mem_mergeMissing he with ⟨d, hd, hpe⟩
      have hd' : d ∈ dkm := (List.perm_insertionSort seqFunLE _).mem_iff.mp hd
      rw [hpe]
      exact hdkm d hd'

/-- Witness for C8: the surviving sentinel entry of the counterexample
candidate is (as every entry of an updated table) not `Nil`. -/
theorem claim_C8_witness :
    ((⟨"z", ""⟩, KeyFuns.Needs2) : KeySeq × KeyFuns).2 ≠ KeyFuns.Nil :=
  claim_C8 stdBindings [(⟨"z", ""⟩, KeyFuns.Needs2)] [] (by decide)
    (⟨"z", ""⟩, KeyFuns.Needs2) (by exact List.mem_cons_self _ _)

theorem mapByName_eq_none (kms : KeyMaps) (nm : String) :
    KeyMaps.mapByName kms nm = none ↔ ∀ it ∈ kms, it.Name ≠ nm := by
  induction kms with
  | nil => simp [KeyMaps.mapByName]
  | cons a as ih =>
      by_cases ha : a.Name = nm
      · simp [KeyMaps.mapByName, ha]
      · simp only [KeyMaps.mapByName, ha, if_false]
        cases h : KeyMaps.mapByName as nm with
        | none =>
            simp only [h, true_iff] at ih ⊢
            intro it hit
            rcases List.mem_cons.mp hit with hit | hit
            · exact hit ▸ ha
            · exact ih it hit
        | some p =>
            rcases p with ⟨m, i⟩
            simp only [h] at ih ⊢
            constructor
            · intro hh
              exact absurd hh (by simp)
            · intro hall
              have : ∀ it ∈ as, it.Name ≠ nm := fun it hit =>
                hall it (List.mem_cons_of_mem a hit)
              exact absurd (ih.mpr this) (by simp)

theorem mapByName_first (kms : KeyMaps) (nm : String) (i : Nat)
    (it : KeyMapsItem) (hget : kms[i]? = some it) (hname : it.Name = nm)
    (hfirst : ∀ k itk, k < i → kms[k]? = some itk → itk.Name ≠ nm) :
    KeyMaps.mapByName kms nm = some (it.Map, i) := by
  induction kms generalizing i with
  | nil => simp at hget
  | cons a as ih =>
      cases i with
      | zero =>
          simp only [List.getElem?_cons_zero, Option.some_inj] at hget
          subst hget
          simp [KeyMaps.mapByName, hname]
      | succ i' =>
          have ha : a.Name ≠ nm :=
            hfirst 0 a (Nat.succ_pos i') List.getElem?_cons_zero
          rw [List.getElem?_cons_succ] at hget
          have hrec := ih i' hget
            (fun k itk hk hg => hfirst (k + 1) itk (Nat.succ_lt_succ hk)
              (by rwa [List.getElem?_cons_succ]))
          simp [KeyMaps.mapByName, ha, hrec]

/-- C9: `SetActiveKeyMapName` leaves everything unchanged when no registry
entry carries the requested name; when one does, the first such entry has
`Update` run on it (against the registry's default map; the purged candidate
itself serves as default when the activated entry is the default entry) and
the result is published as the active table, with the rebuilt index and the
registry entry updated in place. -/
theorem claim_C9 (st : GState) (nm : String) :
    ((∀ it ∈ st.avail, it.Name ≠ nm) → setActiveKeyMapName nm st = some st) ∧
      (∀ i it dkm j, st.avail[i]? = some it → it.Name = nm →
        (∀ k itk, k < i → st.avail[k]? = some itk → itk.Name ≠ nm) →
        KeyMaps.mapByName st.avail st.defaultName = some (dkm, j) →
        setActiveKeyMapName nm st = some
          { st with
            avail := KeyMaps.setMapAt st.avail i
              (KeySeqMap.update
                (if j = i then it.Map.filter (fun e => e.2 ≠ KeyFuns.Nil) else dkm)
                it.Map st.needs2).1,
            active := some (KeySeqMap.update
              (if j = i then it.Map.filter (fun e => e.2 ≠ KeyFuns.Nil) else dkm)
              it.Map st.needs2).1,
            needs2 := (KeySeqMap.update
              (if j = i then it.Map.filter (fun e => e.2 ≠ KeyFuns.Nil) else dkm)
              it.Map st.needs2).2 }) := by
  constructor
  · intro h
    unfold setActiveKeyMapName
    rw [(mapByName_eq_none _ _).mpr h]
  · intro i it dkm j hget hname hfirst hdef
    unfold setActiveKeyMapName
    rw [mapByName_first st.avail nm i it hget hname hfirst]
    unfold setActiveKeyMapAt
    rw [hdef]

/-- Witness for C9: on the startup state, activating an unknown name is a
no-op, and activating `"MacStd"` (registry entry 0; the default map
`"MacEmacs"` is entry 1) publishes the updated first map. -/
theorem claim_C9_witness :
    setActiveKeyMapName "NoSuchMap" initialGState = some initialGState ∧
      setActiveKeyMapName "MacStd" initialGState = some
        { initialGState with
          avail := KeyMaps.setMapAt initialGState.avail 0
            (KeySeqMap.update
              (if 1 = 0 then
                stdBindings.filter (fun e => e.2 ≠ KeyFuns.Nil)
               else stdBindings)
              stdBindings initialGState.needs2).1,
          active := some (KeySeqMap.update
            (if 1 = 0 then stdBindings.filter (fun e => e.2 ≠ KeyFuns.Nil)
             else stdBindings)
            stdBindings initialGState.needs2).1,
          needs2 := (KeySeqMap.update
            (if 1 = 0 then stdBindings.filter (fun e => e.2 ≠ KeyFuns.Nil)
             else stdBindings)
            stdBindings initialGState.needs2).2 } :=
  ⟨(claim_C9 initialGState "NoSuchMap").1 (by decide),
    (claim_C9 initialGState "MacStd").2 0 ⟨"MacStd", "Standard Mac KeyMap",
        stdBindings⟩ stdBindings 1 rfl rfl
      (fun k itk hk _ => absurd hk (Nat.not_lt_zero k)) (by decide)⟩

theorem mergeNat_nil_right (xs : List Nat) : mergeNat xs [] = xs := by
  cases xs <;> simp [mergeNat]

theorem mergeNat_perm (xs ys : List Nat) :
    List.Perm (mergeNat xs ys) (xs ++ ys) := by
  induction xs, ys using mergeNat.induct with
  | case1 ys => simp [mergeNat]
  | case2 xs => simp [mergeNat_nil_right]
  | case3 x xs' y ys' hle ih =>
      simp only [mergeNat, hle, if_true]
      exact (ih.cons x)
  | case4 x xs' y ys' hle ih =>
      simp only [mergeNat, hle, if_false]
      exact List.Perm.trans (ih.cons y) List.perm_middle.symm

theorem mergeNat_sorted {xs ys : List Nat} (hx : xs.Sorted (· ≤ ·))
    (hy : ys.Sorted (· ≤ ·)) : (mergeNat xs ys).Sorted (· ≤ ·) := by
  induction xs, ys using mergeNat.induct with
  | case1 ys => simpa [mergeNat] using hy
  | case2 xs => simpa [mergeNat_nil_right] using hx
  | case3 x xs' y ys' hle ih =>
      rw [List.sorted_cons] at hx
      simp only [mergeNat, hle, if_true]
      rw [List.sorted_cons]
      refine ⟨?_, ih hx.2 hy⟩
      intro b hb
      have hb' : b ∈ xs' ++ (y :: ys') := (mergeNat_perm xs' (y :: ys')).mem_iff.mp hb
      rcases List.mem_append.mp hb' with hb' | hb'
      · exact hx.1 b hb'
      · rcases List.mem_cons.mp hb' with hb' | hb'
        · exact hb' ▸ hle
        · rw [List.sorted_cons] at hy
          exact Nat.le_trans hle (hy.1 b hb')
  | case4 x xs' y ys' hle ih =>
      rw [List.sorted_cons] at hy
      simp only [mergeNat, hle, if_false]
      rw [List.sorted_cons]
      refine ⟨?_, ih hx hy.2⟩
      have hyx : y ≤ x := Nat.le_of_lt (Nat.lt_of_not_le hle)
      intro b hb
      have hb' : b ∈ (x :: xs') ++ ys' := (mergeNat_perm (x :: xs') ys').mem_iff.mp hb
      rcases List.mem_append.mp hb' with hb' | hb'
      · rcases List.mem_cons.mp hb' with hb' | hb'
        · exact hb' ▸ hyx
        · rw [List.sorted_cons] at hx
          exact Nat.le_trans hyx (hx.1 b hb')
      · exact hy.1 b hb'

theorem gMiss_sublist (ds : List Nat) : ∀ ms, List.Sublist (gMiss ds ms) ds := by
  induction ds with
  | nil => intro ms; simp [gMiss]
  | cons d ds' ih =>
      intro ms
      cases ms with
      | nil => simp [gMiss]
      | cons m ms' =>
          by_cases hdm : d < m
          · simpa only [gMiss, hdm, if_true] using (ih (m :: ms')).cons₂ d
          · simpa only [gMiss, hdm, if_false] using (ih ms').cons d

theorem funsOf_mergeMissing (D : List (KeySeq × KeyFuns)) :
    ∀ M, funsOf (mergeMissing D M) = gMiss (funsOf D) (funsOf M) := by
  induction D with
  | nil => intro M; rfl
  | cons d ds ih =>
      intro M
      cases M with
      | nil => rfl
      | cons m ms =>
          by_cases hdm : d.2.val < m.2.val
          · simp only [mergeMissing, gMiss, funsOf, List.map_cons, hdm, if_true]
            rw [show (placeholder d).2.val = d.2.val from rfl]
            have := ih (m :: ms)
            simp only [funsOf, List.map_cons] at this
            rw [this]
          · simp only [mergeMissing, gMiss, funsOf, List.map_cons, hdm, if_false]
            have := ih ms
            simp only [funsOf] at this
            rw [this]

theorem mergeMissing_sublist (D : List (KeySeq × KeyFuns)) :
    ∀ M, List.Sublist (mergeMissing D M) (D.map placeholder) := by
  induction D with
  | nil => intro M; simp [mergeMissing]
  | cons d ds ih =>
      intro M
      cases M with
      | nil => simp [mergeMissing]
      | cons m ms =>
          by_cases hdm : d.2.val < m.2.val
          · simpa only [mergeMissing, hdm, if_true, List.map_cons]
              using (ih (m :: ms)).cons₂ (placeholder d)
          · simpa only [mergeMissing, hdm, if_false, List.map_cons]
              using (ih ms).cons (placeholder d)

theorem funsOf_sortByFun_sorted (l : List (KeySeq × KeyFuns)) :
    (funsOf (sortByFun l)).Sorted (· ≤ ·) :=
  (List.sorted_insertionSort seqFunLE l).map _ (fun _ _ h => h)

/-- Core of the idempotence analysis: re-running the merge-join against the
candidate augmented by the previous pass's own additions selects nothing. -/
theorem gMiss_mergeNat_self (ds : List Nat) :
    ∀ ms, ds.Sorted (· ≤ ·) → ms.Sorted (· ≤ ·) →
      gMiss ds (mergeNat ms (gMiss ds ms)) = [] := by
  induction ds with
  | nil => intro ms _ _; rfl
  | cons d ds' ih =>
      intro ms hd hm
      rw [List.sorted_cons] at hd
      cases ms with
      | nil =>
          simp [mergeNat, gMiss]
      | cons m ms' =>
          rw [List.sorted_cons] at hm
          by_cases hdm : d < m
          · rw [show gMiss (d :: ds') (m :: ms') = d :: gMiss ds' (m :: ms') by
              simp [gMiss, hdm]]
            rw [show mergeNat (m :: ms') (d :: gMiss ds' (m :: ms'))
                = d :: mergeNat (m :: ms') (gMiss ds' (m :: ms')) by
              simp [mergeNat, Nat.not_le.mpr hdm]]
            rw [show gMiss (d :: ds')
                  (d :: mergeNat (m :: ms') (gMiss ds' (m :: ms')))
                = gMiss ds' (mergeNat (m :: ms') (gMiss ds' (m :: ms'))) by
              simp [gMiss, Nat.lt_irrefl]]
            exact ih (m :: ms') hd.2 (List.sorted_cons.mpr hm)
          · rw [show gMiss (d :: ds') (m :: ms') = gMiss ds' ms' by
              simp [gMiss, hdm]]
            have hmd : m ≤ d := Nat.le_of_not_lt hdm
            have hmerge : mergeNat (m :: ms') (gMiss ds' ms')
                = m :: mergeNat ms' (gMiss ds' ms') := by
              cases hA : gMiss ds' ms' with
              | nil => simp [mergeNat, mergeNat_nil_right]
              | cons a as =>
                  have ha : a ∈ ds' := (gMiss_sublist ds' ms').subset
                    (by rw [hA]; exact List.mem_cons_self a as)
                  have hma : m ≤ a := Nat.le_trans hmd (hd.1 a ha)
                  simp [mergeNat, hma]
            rw [hmerge]
            rw [show gMiss (d :: ds') (m :: mergeNat ms' (gMiss ds' ms'))
                = gMiss ds' (mergeNat ms' (gMiss ds' ms')) by
              simp [gMiss, hdm]]
            exact ih ms' hd.2 hm.2

/-- C7 counterexample: `Update` is not idempotent.  For the candidate
`{("- Not Set - PrevPanel","p") ↦ NextPanel, ("z","") ↦ ExecCmd}` the first
pass's synthesized `PrevPanel` placeholder overwrites the entry that bound
`NextPanel` (same key sequence), so `NextPanel` is left unbound and a second
`Update` adds a further placeholder: the tables differ (6 vs 7 entries). -/
theorem claim_C7_cex :
    (KeySeqMap.update stdBindings
        (KeySeqMap.update stdBindings
          [(⟨"- Not Set - PrevPanel", "p"⟩, KeyFuns.NextPanel),
           (⟨"z", ""⟩, KeyFuns.ExecCmd)] []).1
        (KeySeqMap.update stdBindings
          [(⟨"- Not Set - PrevPanel", "p"⟩, KeyFuns.NextPanel),
           (⟨"z", ""⟩, KeyFuns.ExecCmd)] []).2).1
      ≠ (KeySeqMap.update stdBindings
          [(⟨"- Not Set - PrevPanel", "p"⟩, KeyFuns.NextPanel),
           (⟨"z", ""⟩, KeyFuns.ExecCmd)] []).1 := by
  decide

/-- C7 as amended: `Update` (against the canonical default) is idempotent on
the table component for every candidate whose purged entries share no key
sequence with the placeholders the first pass synthesizes — the
counterexample's key collision is the only way a second pass can differ. -/
theorem claim_C7 (km : KeySeqMap) (n2 : List Chord)
    (hov : ∀ p ∈ mergeMissing (sortByFun (KeySeqMap.toSlice stdBindings))
        (sortByFun (KeySeqMap.toSlice (km.filter (fun e => e.2 ≠ KeyFuns.Nil)))),
        ∀ k ∈ KeySeqMap.keys (km.filter (fun e => e.2 ≠ KeyFuns.Nil)), p.1 ≠ k) :
    (KeySeqMap.update stdBindings (KeySeqMap.update stdBindings km n2).1
        (KeySeqMap.update stdBindings km n2).2).1
      = (KeySeqMap.update stdBindings km n2).1 := by
  by_cases h0 : km.filter (fun e => e.2 ≠ KeyFuns.Nil) = []
  · rw [update_of_purge_nil _ _ _ h0]
    have hstd : insertItems [] (KeySeqMap.toSlice stdBindings) = stdBindings := by
      decide
    show (KeySeqMap.update stdBindings
        (insertItems [] (KeySeqMap.toSlice stdBindings)) n2).1
      = insertItems [] (KeySeqMap.toSlice stdBindings)
    rw [hstd, update_of_purge_ne_nil _ _ _ (by decide)]
    decide
  · have hkeys : ∀ it ∈ mergeMissing (sortByFun (KeySeqMap.toSlice stdBindings))
        (sortByFun (KeySeqMap.toSlice (km.filter (fun e => e.2 ≠ KeyFuns.Nil)))),
        it.1 ∉ KeySeqMap.keys (km.filter (fun e => e.2 ≠ KeyFuns.Nil)) :=
      fun p hp hmem => hov p hp p.1 hmem rfl
    have hAnodup : ((mergeMissing (sortByFun (KeySeqMap.toSlice stdBindings))
        (sortByFun (KeySeqMap.toSlice
          (km.filter (fun e => e.2 ≠ KeyFuns.Nil))))).map (·.1)).Nodup := by
      have hsub := (mergeMissing_sublist (sortByFun (KeySeqMap.toSlice stdBindings))
        (sortByFun (KeySeqMap.toSlice
          (km.filter (fun e => e.2 ≠ KeyFuns.Nil))))).map (·.1)
      exact List.Nodup.sublist hsub (by decide)
    have hr1 : (KeySeqMap.update stdBindings km n2).1 =
        km.filter (fun e => e.2 ≠ KeyFuns.Nil) ++
          mergeMissing (sortByFun (KeySeqMap.toSlice stdBindings))
            (sortByFun (KeySeqMap.toSlice
              (km.filter (fun e => e.2 ≠ KeyFuns.Nil)))) := by
      rw [update_of_purge_ne_nil _ _ _ h0]
      exact insertItems_eq_append hkeys hAnodup
    have hstdNotNil : ∀ d ∈ KeySeqMap.toSlice stdBindings,
        (placeholder d).2 ≠ KeyFuns.Nil := by decide
    have hfmem : ∀ e ∈ km.filter (fun e => e.2 ≠ KeyFuns.Nil) ++
        mergeMissing (sortByFun (KeySeqMap.toSlice stdBindings))
          (sortByFun (KeySeqMap.toSlice
            (km.filter (fun e => e.2 ≠ KeyFuns.Nil)))),
        e.2 ≠ KeyFuns.Nil := by
      intro e he
      rcases List.mem_append.mp he with he | he
      · have := List.of_mem_filter he
        simpa using this
      · rcases mem_mergeMissing he with ⟨d, hd, hpe⟩
        have hd' : d ∈ KeySeqMap.toSlice stdBindings :=
          (List.perm_insertionSort seqFunLE _).mem_iff.mp hd
        exact hpe ▸ hstdNotNil d hd'
    have hfilter : (km.filter (fun e => e.2 ≠ KeyFuns.Nil) ++
        mergeMissing (sortByFun (KeySeqMap.toSlice stdBindings))
          (sortByFun (KeySeqMap.toSlice
            (km.filter (fun e => e.2 ≠ KeyFuns.Nil))))).filter
          (fun e => e.2 ≠ KeyFuns.Nil) =
        km.filter (fun e => e.2 ≠ KeyFuns.Nil) ++
          mergeMissing (sortByFun (KeySeqMap.toSlice stdBindings))
            (sortByFun (KeySeqMap.toSlice
              (km.filter (fun e => e.2 ≠ KeyFuns.Nil)))) :=
      List.filter_eq_self.mpr (fun e he => by
        simpa using hfmem e he)
    have hne : (km.filter (fun e => e.2 ≠ KeyFuns.Nil) ++
        mergeMissing (sortByFun (KeySeqMap.toSlice stdBindings))
          (sortByFun (KeySeqMap.toSlice
            (km.filter (fun e => e.2 ≠ KeyFuns.Nil))))).filter
          (fun e => e.2 ≠ KeyFuns.Nil) ≠ [] := by
      rw [hfilter]
      intro hc
      exact h0 (List.append_eq_nil.mp hc).1
    rw [hr1, update_of_purge_ne_nil _ _ _ hne, hfilter]
    have hA2 : mergeMissing (sortByFun (KeySeqMap.toSlice stdBindings))
        (sortByFun (KeySeqMap.toSlice
          (km.filter (fun e => e.2 ≠ KeyFuns.Nil) ++
            mergeMissing (sortByFun (KeySeqMap.toSlice stdBindings))
              (sortByFun (KeySeqMap.toSlice
                (km.filter (fun e => e.2 ≠ KeyFuns.Nil))))))) = [] := by
      have hFA : funsOf (mergeMissing (sortByFun (KeySeqMap.toSlice stdBindings))
          (sortByFun (KeySeqMap.toSlice
            (km.filter (fun e => e.2 ≠ KeyFuns.Nil))))) =
          gMiss (funsOf (sortByFun (KeySeqMap.toSlice stdBindings)))
            (funsOf (sortByFun (KeySeqMap.toSlice
              (km.filter (fun e => e.2 ≠ KeyFuns.Nil))))) :=
        funsOf_mergeMissing _ _
      have hFAsorted : (funsOf (mergeMissing
          (sortByFun (KeySeqMap.toSlice stdBindings))
          (sortByFun (KeySeqMap.toSlice
            (km.filter (fun e => e.2 ≠ KeyFuns.Nil)))))).Sorted (· ≤ ·) := by
        rw [hFA]
        exact List.Pairwise.sublist (gMiss_sublist _ _)
          (funsOf_sortByFun_sorted _)
      have hMS' : funsOf (sortByFun (KeySeqMap.toSlice
          (km.filter (fun e => e.2 ≠ KeyFuns.Nil) ++
            mergeMissing (sortByFun (KeySeqMap.toSlice stdBindings))
              (sortByFun (KeySeqMap.toSlice
                (km.filter (fun e => e.2 ≠ KeyFuns.Nil)))))))
          = mergeNat
            (funsOf (sortByFun (KeySeqMap.toSlice
              (km.filter (fun e => e.2 ≠ KeyFuns.Nil)))))
            (funsOf (mergeMissing (sortByFun (KeySeqMap.toSlice stdBindings))
              (sortByFun (KeySeqMap.toSlice
                (km.filter (fun e => e.2 ≠ KeyFuns.Nil)))))) := by
        refine List.eq_of_perm_of_sorted ?_ (funsOf_sortByFun_sorted _)
          (mergeNat_sorted (funsOf_sortByFun_sorted _) hFAsorted)
        · have p1 : List.Perm
              (funsOf (sortByFun (KeySeqMap.toSlice
                (km.filter (fun e => e.2 ≠ KeyFuns.Nil) ++
                  mergeMissing (sortByFun (KeySeqMap.toSlice stdBindings))
                    (sortByFun (KeySeqMap.toSlice
                      (km.filter (fun e => e.2 ≠ KeyFuns.Nil))))))))
              (funsOf (km.filter (fun e => e.2 ≠ KeyFuns.Nil)) ++
                funsOf (mergeMissing (sortByFun (KeySeqMap.toSlice stdBindings))
                  (sortByFun (KeySeqMap.toSlice
                    (km.filter (fun e => e.2 ≠ KeyFuns.Nil)))))) := by
            have := (List.perm_insertionSort seqFunLE
              (KeySeqMap.toSlice
                (km.filter (fun e => e.2 ≠ KeyFuns.Nil) ++
                  mergeMissing (sortByFun (KeySeqMap.toSlice stdBindings))
                    (sortByFun (KeySeqMap.toSlice
                      (km.filter (fun e => e.2 ≠ KeyFuns.Nil))))))).map
              (fun e => e.2.val)
            simpa [funsOf, KeySeqMap.toSlice, List.map_append] using this
          have p4 : List.Perm
              (funsOf (sortByFun (KeySeqMap.toSlice
                (km.filter (fun e => e.2 ≠ KeyFuns.Nil)))))
              (funsOf (km.filter (fun e => e.2 ≠ KeyFuns.Nil))) := by
            have := (List.perm_insertionSort seqFunLE
              (KeySeqMap.toSlice
                (km.filter (fun e => e.2 ≠ KeyFuns.Nil)))).map (fun e => e.2.val)
            simpa [funsOf, sortByFun, KeySeqMap.toSlice] using this
          have p3 := mergeNat_perm
            (funsOf (sortByFun (KeySeqMap.toSlice
              (km.filter (fun e => e.2 ≠ KeyFuns.Nil)))))
            (funsOf (mergeMissing (sortByFun (KeySeqMap.toSlice stdBindings))
              (sortByFun (KeySeqMap.toSlice
                (km.filter (fun e => e.2 ≠ KeyFuns.Nil))))))
          exact p1.trans ((p4.append_right _).symm.trans p3.symm)
      have hfuns : funsOf (mergeMissing
          (sortByFun (KeySeqMap.toSlice stdBindings))
          (sortByFun (KeySeqMap.toSlice
            (km.filter (fun e => e.2 ≠ KeyFuns.Nil) ++
              mergeMissing (sortByFun (KeySeqMap.toSlice stdBindings))
                (sortByFun (KeySeqMap.toSlice
                  (km.filter (fun e => e.2 ≠ KeyFuns.Nil)))))))) = [] := by
        rw [funsOf_mergeMissing, hMS', hFA]
        exact gMiss_mergeNat_self _ _ (funsOf_sortByFun_sorted _)
          (funsOf_sortByFun_sorted _)
      exact List.map_eq_nil_iff.mp hfuns
    rw [hA2]
    rfl

/-- Witness for C7 at a collision-free candidate. -/
theorem claim_C7_witness :
    (KeySeqMap.update stdBindings
        (KeySeqMap.update stdBindings [(⟨"a", ""⟩, KeyFuns.ExecCmd)] []).1
        (KeySeqMap.update stdBindings [(⟨"a", ""⟩, KeyFuns.ExecCmd)] []).2).1
      = (KeySeqMap.update stdBindings [(⟨"a", ""⟩, KeyFuns.ExecCmd)] []).1 :=
  claim_C7 [(⟨"a", ""⟩, KeyFuns.ExecCmd)] [] (by decide)

end Gide
